import Mathlib

/-!
Verification of the mini-agent core: conversation store with lossy
compaction, directive parsing (tool calls, parallel batches, final
answers), the per-agent execution loop step, and sub-agent record
cancellation.  Definitions are shallow embeddings of the Rust sources
in src/context/mod.rs, src/subagent/mod.rs and src/cli/mod.rs.
-/

/-- Message roles, mirroring `llm::Role`. -/
inductive Role where
  | System
  | User
  | Assistant
deriving DecidableEq, Repr

/-- A conversation message, mirroring `llm::Message`. -/
structure Message where
  role : Role
  content : String
deriving DecidableEq, Repr

/-- The debug rendering of a role, as produced by the derived Debug
instance used in `format!("{:?}: {}", m.role, m.content)`. -/
def roleLabel : Role → String
  | Role.System => "System"
  | Role.User => "User"
  | Role.Assistant => "Assistant"

/-- `ContextManager`: ordered history plus token budget.  The optional
summarizer stands for the `llm` field; it receives the ephemeral message
list and returns the completion or an error. -/
structure ContextManager where
  history : List Message
  max_tokens : Nat
  llm : Option (List Message → Except String String)

/-- `ContextManager::add_message`. -/
def add_message (cm : ContextManager) (m : Message) : ContextManager :=
  { cm with history := cm.history ++ [m] }

/-- `ContextManager::clear_history`. -/
def clear_history (cm : ContextManager) : ContextManager :=
  { cm with history := [] }

/-- `ContextManager::inject_system_prompt`: replace the content of a
leading System message, otherwise insert a fresh System message at
index 0. -/
def inject_system_prompt (cm : ContextManager) (prompt : String) : ContextManager :=
  match cm.history with
  | first :: rest =>
    if first.role = Role.System then
      { cm with history := ⟨Role.System, prompt⟩ :: rest }
    else
      { cm with history := ⟨Role.System, prompt⟩ :: first :: rest }
  | [] => { cm with history := [⟨Role.System, prompt⟩] }

/-- The `current_len` accumulator of `compress`: sum of content lengths. -/
def estimatedLen (h : List Message) : Nat :=
  (h.map (fun m => m.content.length)).sum

/-- The fixed summarization request text of `compress`. -/
def summaryRequest (body : String) : String :=
  "Summarize the following conversation history into a single paragraph. Ignore system messages if any.\n\n" ++ body

/-- The summary string produced inside `compress`: the LLM result when
available, the fixed fallbacks otherwise. -/
def summaryText (llm : Option (List Message → Except String String)) (body : String) : String :=
  match llm with
  | some f =>
    match f [⟨Role.User, summaryRequest body⟩] with
    | Except.ok s => s
    | Except.error _ => "... Conversation compressed (summary failed) ..."
  | none => "... Old conversation compressed ..."

/-- `ContextManager::compress`, the lossy compaction step. -/
def compress (cm : ContextManager) : ContextManager :=
  let current_len := estimatedLen cm.history
  if current_len / 4 > cm.max_tokens then
    if cm.history.length ≤ 5 then cm
    else
      let system_msg : Option Message :=
        match cm.history.head? with
        | some first => if first.role = Role.System then some first else none
        | none => none
      let start_idx := if system_msg.isSome then 1 else 0
      let end_idx := cm.history.length - 4
      if start_idx ≥ end_idx then cm
      else
        let to_summarize := (cm.history.drop start_idx).take (end_idx - start_idx)
        let body := String.intercalate "\n"
          (to_summarize.map (fun m => roleLabel m.role ++ ": " ++ m.content))
        let summary_msg : Message :=
          ⟨Role.System, "Previous conversation summary: " ++ summaryText cm.llm body⟩
        { cm with history := system_msg.toList ++ [summary_msg] ++ cm.history.drop end_idx }
  else cm

/-- The Conversation Store invariant of the spec: at most one System
message and, when present, it sits at index 0.  Equivalently: no System
message strictly after the head. -/
def sysInvariant (h : List Message) : Bool :=
  (h.drop 1).all (fun m => decide (m.role ≠ Role.System))

/-- Whether the history starts with a System message. -/
def headIsSystem (h : List Message) : Bool :=
  match h with
  | m :: _ => m.role = Role.System
  | [] => false

theorem sysInvariant_nil : sysInvariant [] = true := rfl

theorem sysInvariant_cons (a : Message) (t : List Message) :
    sysInvariant (a :: t) = t.all (fun m => decide (m.role ≠ Role.System)) := rfl

theorem sysInvariant_iff (h : List Message) :
    sysInvariant h = true ↔ ∀ m ∈ h.drop 1, m.role ≠ Role.System := by
  unfold sysInvariant
  rw [List.all_eq_true]
  simp

/-- The role-labeled middle span rendered by `compress` before asking for
the summary. -/
def compressBody (cm : ContextManager) : String :=
  let start_idx := if headIsSystem cm.history then 1 else 0
  let end_idx := cm.history.length - 4
  String.intercalate "\n"
    (((cm.history.drop start_idx).take (end_idx - start_idx)).map
      (fun m => roleLabel m.role ++ ": " ++ m.content))

/-- The synthetic summary message built by `compress`. -/
def summaryMsg (cm : ContextManager) : Message :=
  ⟨Role.System, "Previous conversation summary: " ++ summaryText cm.llm (compressBody cm)⟩

/-- The rebuilt history of a store that `compress` actually rewrites. -/
def compressedHistory (cm : ContextManager) : List Message :=
  (if headIsSystem cm.history then cm.history.take 1 else []) ++
    [summaryMsg cm] ++ cm.history.drop (cm.history.length - 4)

theorem compress_of_not_over (cm : ContextManager)
    (h : estimatedLen cm.history / 4 ≤ cm.max_tokens) :
    compress cm = cm := by
  simp only [compress]
  rw [if_neg (by omega)]

theorem compress_of_small (cm : ContextManager)
    (h : cm.history.length ≤ 5) :
    compress cm = cm := by
  simp only [compress]
  split_ifs <;> rfl

theorem compress_rewrite (cm : ContextManager)
    (hover : cm.max_tokens < estimatedLen cm.history / 4)
    (hlen : 5 < cm.history.length) :
    compress cm = { cm with history := compressedHistory cm } := by
  obtain ⟨a, t, hat⟩ : ∃ a t, cm.history = a :: t := by
    cases h : cm.history with
    | nil => rw [h] at hlen; simp at hlen
    | cons a t => exact ⟨a, t, rfl⟩
  have ht : 4 < t.length := by
    rw [hat] at hlen; simp only [List.length_cons] at hlen; omega
  simp only [compress]
  rw [if_pos hover]
  rw [if_neg (by omega)]
  rw [hat]
  simp only [List.head?_cons]
  by_cases hs : a.role = Role.System <;>
    simp [compressedHistory, summaryMsg, compressBody, headIsSystem, hat, hs] <;>
    intro hzero <;> exact absurd hzero (by omega)

theorem compress_max_tokens (cm : ContextManager) :
    (compress cm).max_tokens = cm.max_tokens := by
  by_cases hover : cm.max_tokens < estimatedLen cm.history / 4
  · by_cases hlen : 5 < cm.history.length
    · rw [compress_rewrite cm hover hlen]
    · rw [compress_of_small cm (by omega)]
  · rw [compress_of_not_over cm (by omega)]

theorem all_nonSystem_drop {h : List Message} {n : Nat} (hn : 1 ≤ n)
    (hinv : sysInvariant h = true) :
    ((h.drop n).all (fun m => decide (m.role ≠ Role.System))) = true := by
  unfold sysInvariant at hinv
  rw [List.all_eq_true] at hinv ⊢
  intro x hx
  apply hinv
  have hd : h.drop n = (h.drop 1).drop (n - 1) := by
    rw [List.drop_drop]
    congr 1
    omega
  rw [hd] at hx
  exact (List.drop_sublist _ _).subset hx

/-- A sample oversized store without a leading System message: six
messages, the first of 100 characters, against a budget of 20 tokens. -/
def storeBig : ContextManager :=
  ⟨[⟨Role.User, "aaaaaaaaaaaaaaaaaaaaaaaaaaaaaaaaaaaaaaaaaaaaaaaaaaaaaaaaaaaaaaaaaaaaaaaaaaaaaaaaaaaaaaaaaaaaaaaaaaaa"⟩,
    ⟨Role.User, "b"⟩, ⟨Role.User, "c"⟩, ⟨Role.User, "d"⟩,
    ⟨Role.User, "e"⟩, ⟨Role.User, "f"⟩], 20, none⟩

/-- A sample oversized store with a leading System message. -/
def storeSys : ContextManager :=
  ⟨[⟨Role.System, "s"⟩,
    ⟨Role.User, "aaaaaaaaaaaaaaaaaaaaaaaaaaaaaaaaaaaaaaaaaaaaaaaaaaaaaaaaaaaaaaaaaaaaaaaaaaaaaaaaaaaaaaaaaaaaaaaaaaaa"⟩,
    ⟨Role.User, "c"⟩, ⟨Role.User, "d"⟩,
    ⟨Role.User, "e"⟩, ⟨Role.User, "f"⟩], 20, none⟩

/-- C1: the claim asserts that compress preserves the System-uniqueness
invariant on every over-threshold store of more than 5 messages.  It
fails: the summary message is built with role System, so compressing a
store whose head is a System message yields System messages at indices
0 and 1. -/
theorem C1_counterexample :
    sysInvariant storeSys.history = true ∧
      storeSys.max_tokens < estimatedLen storeSys.history / 4 ∧
      5 < storeSys.history.length ∧
      sysInvariant (compress storeSys).history = false := by
  decide

/-- C1 (amended): add_message of a non-System message,
inject_system_prompt and clear_history preserve the invariant, and
compress preserves it whenever the store has no leading System message;
but when an over-threshold store of more than 5 messages starts with a
System message, compress produces a history violating the invariant
(the synthetic summary message also carries role System). -/
theorem C1_amended :
    (∀ (cm : ContextManager) (m : Message), m.role ≠ Role.System →
        sysInvariant cm.history = true →
        sysInvariant (add_message cm m).history = true) ∧
    (∀ (cm : ContextManager) (p : String),
        sysInvariant cm.history = true →
        sysInvariant (inject_system_prompt cm p).history = true) ∧
    (∀ cm : ContextManager, sysInvariant (clear_history cm).history = true) ∧
    (∀ cm : ContextManager, sysInvariant cm.history = true →
        headIsSystem cm.history = false →
        sysInvariant (compress cm).history = true) ∧
    (∀ cm : ContextManager, cm.max_tokens < estimatedLen cm.history / 4 →
        5 < cm.history.length → headIsSystem cm.history = true →
        sysInvariant (compress cm).history = false) := by
  refine ⟨?_, ?_, ?_, ?_, ?_⟩
  · intro cm m hm hinv
    rw [sysInvariant_iff] at hinv ⊢
    intro x hx
    cases hh : cm.history with
    | nil => simp [add_message, hh] at hx
    | cons a t =>
      simp only [add_message, hh, List.cons_append, List.drop_one, List.tail_cons] at hx
      rcases List.mem_append.mp hx with h1 | h2
      · exact hinv x (by simp [hh, List.drop_one, h1])
      · simp only [List.mem_singleton] at h2
        subst h2
        exact hm
  · intro cm p hinv
    rw [sysInvariant_iff] at hinv ⊢
    intro x hx
    cases hh : cm.history with
    | nil => simp [inject_system_prompt, hh] at hx
    | cons a t =>
      by_cases hs : a.role = Role.System
      · simp only [inject_system_prompt, hh, hs, if_true, List.drop_one,
          List.tail_cons] at hx
        exact hinv x (by simp [hh, List.drop_one, hx])
      · simp only [inject_system_prompt, hh, hs, if_false, List.drop_one,
          List.tail_cons] at hx
        rcases List.mem_cons.mp hx with h1 | h2
        · subst h1; exact hs
        · exact hinv x (by simp [hh, List.drop_one, h2])
  · intro cm
    simp [clear_history, sysInvariant]
  · intro cm hinv hhead
    by_cases hover : cm.max_tokens < estimatedLen cm.history / 4
    · by_cases hlen : 5 < cm.history.length
      · rw [compress_rewrite cm hover hlen]
        simp only [compressedHistory, hhead, Bool.false_eq_true, if_false,
          List.nil_append, List.singleton_append]
        rw [sysInvariant_cons]
        exact all_nonSystem_drop (by omega) hinv
      · rw [compress_of_small cm (by omega)]; exact hinv
    · rw [compress_of_not_over cm (by omega)]; exact hinv
  · intro cm hover hlen hhead
    rw [compress_rewrite cm hover hlen]
    cases hh : cm.history with
    | nil => rw [hh] at hlen; simp at hlen
    | cons a t =>
      rw [hh] at hhead
      simp [compressedHistory, hh, hhead, summaryMsg, sysInvariant]

theorem C1_amended_witness :
    sysInvariant (add_message ⟨[⟨Role.System, "s"⟩], 10, none⟩
      ⟨Role.User, "hi"⟩).history = true ∧
    sysInvariant (inject_system_prompt ⟨[⟨Role.User, "u"⟩], 10, none⟩
      "p").history = true ∧
    sysInvariant (clear_history ⟨[⟨Role.User, "u"⟩], 10, none⟩).history = true ∧
    sysInvariant (compress storeBig).history = true ∧
    sysInvariant (compress storeSys).history = false :=
  ⟨C1_amended.1 _ ⟨Role.User, "hi"⟩ (by decide) (by decide),
   C1_amended.2.1 _ "p" (by decide),
   C1_amended.2.2.1 _,
   C1_amended.2.2.2.1 storeBig (by decide) (by decide),
   C1_amended.2.2.2.2 storeSys (by decide) (by decide) (by decide)⟩

/-- A small store below the threshold. -/
def storeSmall : ContextManager := ⟨[⟨Role.User, "hello"⟩], 10, none⟩

/-- C2: compress is a no-op when the size estimate is at most the
threshold or the store holds at most 5 messages; otherwise the
resulting count is (1 if a leading System message is present else 0)
+ 1 summary + 4 kept tail messages; and once the estimate is below
the threshold a further compress changes nothing. -/
theorem C2_compress_noop_count :
    ∀ cm : ContextManager,
      ((estimatedLen cm.history / 4 ≤ cm.max_tokens ∨ cm.history.length ≤ 5) →
        compress cm = cm) ∧
      (cm.max_tokens < estimatedLen cm.history / 4 → 5 < cm.history.length →
        (compress cm).history.length =
          (if headIsSystem cm.history then 1 else 0) + 1 + 4) ∧
      (estimatedLen (compress cm).history / 4 ≤ cm.max_tokens →
        compress (compress cm) = compress cm) := by
  intro cm
  refine ⟨?_, ?_, ?_⟩
  · rintro (h | h)
    · exact compress_of_not_over cm h
    · exact compress_of_small cm h
  · intro hover hlen
    rw [compress_rewrite cm hover hlen]
    show (compressedHistory cm).length = _
    cases hh : headIsSystem cm.history
    · simp only [compressedHistory, hh]
      rw [if_neg (by simp), if_neg (by simp)]
      simp only [List.length_append, List.length_nil, List.length_drop,
        List.length_singleton]
      omega
    · simp only [compressedHistory, hh, if_true]
      simp only [List.length_append, List.length_take, List.length_drop,
        List.length_singleton]
      omega
  · intro h
    apply compress_of_not_over
    rw [compress_max_tokens]
    exact h

theorem C2_compress_noop_count_witness :
    compress storeSmall = storeSmall ∧
      (compress storeBig).history.length = 0 + 1 + 4 ∧
      compress (compress storeBig) = compress storeBig := by
  refine ⟨(C2_compress_noop_count storeSmall).1 (Or.inl (by decide)), ?_, ?_⟩
  · have h := (C2_compress_noop_count storeBig).2.1 (by decide) (by decide)
    rwa [show headIsSystem storeBig.history = false by decide, if_neg] at h
    decide
  · exact (C2_compress_noop_count storeBig).2.2 (by decide)

/-- C8: whenever compress actually rewrites (over threshold, more than 5
messages), the optional leading System message is kept verbatim at the
front, exactly one summary message follows it, and the original trailing
4 messages close the result unchanged and in order. -/
theorem C8_compress_frame :
    ∀ cm : ContextManager, cm.max_tokens < estimatedLen cm.history / 4 →
      5 < cm.history.length →
      ∃ s : String, (compress cm).history =
        (if headIsSystem cm.history then cm.history.take 1 else []) ++
          [⟨Role.System, "Previous conversation summary: " ++ s⟩] ++
          cm.history.drop (cm.history.length - 4) := by
  intro cm hover hlen
  refine ⟨summaryText cm.llm (compressBody cm), ?_⟩
  rw [compress_rewrite cm hover hlen]
  simp [compressedHistory, summaryMsg]

theorem C8_compress_frame_witness :
    ∃ s : String, (compress storeSys).history =
      (if headIsSystem storeSys.history then storeSys.history.take 1 else []) ++
        [⟨Role.System, "Previous conversation summary: " ++ s⟩] ++
        storeSys.history.drop (storeSys.history.length - 4) :=
  C8_compress_frame storeSys (by decide) (by decide)

/-! ### String scanning primitives for the directive grammar

The Rust side uses non-greedy DOTALL regexes of the shape
`<tag>\s*(.*?)\s*</tag>`: the matched region runs from the first opening
tag to the first closing tag after it, with surrounding whitespace
stripped.  We model the scan over `List Char`. -/

/-- ASCII whitespace as matched by `\s` / `str::trim` on the inputs of
interest. -/
def isWsChar (c : Char) : Bool :=
  c = ' ' || c = '\t' || c = '\n' || c = '\r' || c = '\x0b' || c = '\x0c'

/-- Strip leading and trailing whitespace. -/
def trimWs (l : List Char) : List Char :=
  ((l.dropWhile isWsChar).reverse.dropWhile isWsChar).reverse

/-- Split at the first occurrence of `pat`: returns the text before it
and the text after it, or `none` when `pat` does not occur. -/
def splitFirst (pat : List Char) (l : List Char) : Option (List Char × List Char) :=
  if pat.isPrefixOf l then some ([], l.drop pat.length)
  else
    match l with
    | [] => none
    | a :: rest => (splitFirst pat rest).map fun p => (a :: p.1, p.2)

/-- The raw inner text of the first `op`…`cl` region: the text between
the first occurrence of `op` and the first occurrence of `cl` after it. -/
def extractRegion (op cl content : List Char) : Option (List Char) :=
  (splitFirst op content).bind fun a =>
    (splitFirst cl a.2).map fun b => b.1

def toolOpen : List Char := "<tool_code>".toList
def toolClose : List Char := "</tool_code>".toList
def finalOpen : List Char := "<final>".toList
def finalClose : List Char := "</final>".toList
def parallelOpen : List Char := "<parallel>".toList
def parallelClose : List Char := "</parallel>".toList

theorem splitFirst_of_prefix (pat l2 : List Char) :
    splitFirst pat (pat ++ l2) = some ([], l2) := by
  have hpre : pat.isPrefixOf (pat ++ l2) = true :=
    List.isPrefixOf_iff_prefix.mpr (List.prefix_append _ _)
  rw [splitFirst.eq_def, if_pos hpre, List.drop_left]

theorem splitFirst_append {pat : List Char} {c : Char} (l1 l2 : List Char)
    (hc : pat.head? = some c) (h : c ∉ l1) :
    splitFirst pat (l1 ++ pat ++ l2) = some (l1, l2) := by
  induction l1 with
  | nil =>
    simp only [List.nil_append]
    exact splitFirst_of_prefix pat l2
  | cons a t ih =>
    have h := h
    have hac : a ≠ c := fun hax => h (hax ▸ List.mem_cons_self a t)
    have hct : c ∉ t := fun hx => h (List.mem_cons_of_mem a hx)
    obtain ⟨p, pt, hp⟩ : ∃ p pt, pat = p :: pt := by
      cases pat with
      | nil => simp at hc
      | cons p pt => exact ⟨p, pt, rfl⟩
    have hpc : p = c := by rw [hp] at hc; simpa using hc
    have hstep : (a :: t) ++ pat ++ l2 = a :: (t ++ pat ++ l2) := by simp
    rw [hstep]
    have hnp : ¬ (pat.isPrefixOf (a :: (t ++ pat ++ l2)) = true) := by
      intro hpre
      obtain ⟨r, hr⟩ := List.isPrefixOf_iff_prefix.mp hpre
      rw [hp] at hr
      simp only [List.cons_append] at hr
      have hpa : p = a := by
        have hh := congrArg List.head? hr
        simpa using hh
      exact hac (hpa.symm.trans hpc)
    rw [splitFirst, if_neg hnp]
    show (splitFirst pat (t ++ pat ++ l2)).map (fun q => (a :: q.1, q.2)) = some (a :: t, l2)
    rw [ih hct]
    rfl

/-! ### JSON values and a serde_json-style parser

`parse_tool_call` runs `serde_json::from_str` on the region text and
`parse_parallel_tasks` parses each `\x7b...\x7d` chunk as a
`serde_json::Value`; we model the JSON data and its grammar here. -/

inductive JValue where
  | null
  | boolean (b : Bool)
  | num (neg : Bool) (mant : Nat) (notInt : Bool)
  | str (s : String)
  | arr (elems : List JValue)
  | obj (fields : List (String × JValue))
deriving Repr

/-- JSON insignificant whitespace. -/
def isJsonWs (c : Char) : Bool :=
  c = ' ' || c = '\t' || c = '\n' || c = '\r'

def skipWs (l : List Char) : List Char := l.dropWhile isJsonWs

def hexVal (c : Char) : Option Nat :=
  if c.isDigit then some (c.toNat - 48)
  else if 'a' ≤ c ∧ c ≤ 'f' then some (c.toNat - 87)
  else if 'A' ≤ c ∧ c ≤ 'F' then some (c.toNat - 55)
  else none

/-- Parse the remainder of a JSON string literal (after the opening
quote): returns its decoded characters and the text after the closing
quote. -/
def parseStringBody : Nat → List Char → Option (List Char × List Char)
  | 0, _ => none
  | fuel + 1, l =>
    match l with
    | [] => none
    | '"' :: rest => some ([], rest)
    | '\\' :: esc =>
      match esc with
      | '"' :: r => (parseStringBody fuel r).map fun q => ('"' :: q.1, q.2)
      | '\\' :: r => (parseStringBody fuel r).map fun q => ('\\' :: q.1, q.2)
      | '/' :: r => (parseStringBody fuel r).map fun q => ('/' :: q.1, q.2)
      | 'b' :: r => (parseStringBody fuel r).map fun q => ('\x08' :: q.1, q.2)
      | 'f' :: r => (parseStringBody fuel r).map fun q => ('\x0c' :: q.1, q.2)
      | 'n' :: r => (parseStringBody fuel r).map fun q => ('\n' :: q.1, q.2)
      | 'r' :: r => (parseStringBody fuel r).map fun q => ('\r' :: q.1, q.2)
      | 't' :: r => (parseStringBody fuel r).map fun q => ('\t' :: q.1, q.2)
      | 'u' :: h1 :: h2 :: h3 :: h4 :: r =>
        match hexVal h1, hexVal h2, hexVal h3, hexVal h4 with
        | some a, some b, some c, some d =>
          (parseStringBody fuel r).map fun q =>
            (Char.ofNat (((a * 16 + b) * 16 + c) * 16 + d) :: q.1, q.2)
        | _, _, _, _ => none
      | _ => none
    | c :: rest =>
      if c.toNat < 32 then none
      else (parseStringBody fuel rest).map fun q => (c :: q.1, q.2)

def digitsVal (ds : List Char) : Nat :=
  ds.foldl (fun a c => a * 10 + (c.toNat - 48)) 0

/-- The integer part of a JSON number: a single 0, or a nonzero digit
followed by digits. -/
def parseIntPart (l : List Char) : Option (Nat × List Char) :=
  match l with
  | '0' :: r => some (0, r)
  | c :: _ =>
    if c.isDigit then
      some (digitsVal (l.takeWhile Char.isDigit), l.dropWhile Char.isDigit)
    else none
  | [] => none

/-- Optional fraction part; a bare dot without digits is an error. -/
def parseFracPart (l : List Char) : Option (Bool × List Char) :=
  match l with
  | '.' :: r =>
    if (r.takeWhile Char.isDigit).isEmpty then none
    else some (true, r.dropWhile Char.isDigit)
  | _ => some (false, l)

def parseExpTail (r : List Char) : Option (Bool × List Char) :=
  let r2 := match r with
    | '+' :: rr => rr
    | '-' :: rr => rr
    | _ => r
  if (r2.takeWhile Char.isDigit).isEmpty then none
  else some (true, r2.dropWhile Char.isDigit)

/-- Optional exponent part. -/
def parseExpPart (l : List Char) : Option (Bool × List Char) :=
  match l with
  | 'e' :: r => parseExpTail r
  | 'E' :: r => parseExpTail r
  | _ => some (false, l)

/-- Parse a JSON number; `notInt` records a fraction or exponent (the
cases serde_json stores as f64, for which `as_u64` is `None`). -/
def parseNumber (l : List Char) : Option (JValue × List Char) :=
  let negSplit : Bool × List Char := match l with
    | '-' :: r => (true, r)
    | _ => (false, l)
  match parseIntPart negSplit.2 with
  | none => none
  | some (mant, r1) =>
    match parseFracPart r1 with
    | none => none
    | some q =>
      match parseExpPart q.2 with
      | none => none
      | some e => some (JValue.num negSplit.1 mant (q.1 || e.1), e.2)

mutual

def parseValue : Nat → List Char → Option (JValue × List Char)
  | 0, _ => none
  | fuel + 1, l =>
    match skipWs l with
    | 'n' :: 'u' :: 'l' :: 'l' :: rest => some (JValue.null, rest)
    | 't' :: 'r' :: 'u' :: 'e' :: rest => some (JValue.boolean true, rest)
    | 'f' :: 'a' :: 'l' :: 's' :: 'e' :: rest => some (JValue.boolean false, rest)
    | '"' :: rest =>
      (parseStringBody (rest.length + 1) rest).map fun q =>
        (JValue.str (String.mk q.1), q.2)
    | '[' :: rest =>
      match skipWs rest with
      | ']' :: r2 => some (JValue.arr [], r2)
      | r2 => (parseElems fuel r2).map fun q => (JValue.arr q.1, q.2)
    | '\x7b' :: rest =>
      match skipWs rest with
      | '\x7d' :: r2 => some (JValue.obj [], r2)
      | r2 => (parseFields fuel r2).map fun q => (JValue.obj q.1, q.2)
    | l2 => parseNumber l2

def parseElems : Nat → List Char → Option (List JValue × List Char)
  | 0, _ => none
  | fuel + 1, l =>
    (parseValue fuel l).bind fun v =>
      match skipWs v.2 with
      | ',' :: r2 => (parseElems fuel r2).map fun q => (v.1 :: q.1, q.2)
      | ']' :: r2 => some ([v.1], r2)
      | _ => none

def parseFields : Nat → List Char → Option (List (String × JValue) × List Char)
  | 0, _ => none
  | fuel + 1, l =>
    match skipWs l with
    | '"' :: rest =>
      (parseStringBody (rest.length + 1) rest).bind fun ks =>
        match skipWs ks.2 with
        | ':' :: r2 =>
          (parseValue fuel r2).bind fun v =>
            match skipWs v.2 with
            | ',' :: r3 =>
              (parseFields fuel r3).map fun q =>
                ((String.mk ks.1, v.1) :: q.1, q.2)
            | '\x7d' :: r3 => some ([(String.mk ks.1, v.1)], r3)
            | _ => none
        | _ => none
    | _ => none

end

/-- `serde_json::from_str::<Value>`: a full value with only trailing
whitespace allowed. -/
def fromStr (s : String) : Option JValue :=
  let l := s.toList
  match parseValue (2 * l.length + 2) l with
  | some (v, rest) => if (skipWs rest).isEmpty then some v else none
  | none => none

/-- Map lookup on an object: later duplicate keys win, as in the
serde_json map built by insertion. -/
def objGet (fields : List (String × JValue)) (k : String) : Option JValue :=
  (fields.reverse.find? (fun q => q.1 = k)).map (fun q => q.2)

/-- `Value` bracket indexing (`value["k"]`): Null on a miss or on a
non-object. -/
def jIndex (v : JValue) (k : String) : JValue :=
  match v with
  | JValue.obj fields => (objGet fields k).getD JValue.null
  | _ => JValue.null

/-- `Value::as_str`. -/
def asStr : JValue → Option String
  | JValue.str s => some s
  | _ => none

/-- `Value::as_u64`: only non-negative integers without fraction or
exponent. -/
def asU64 : JValue → Option Nat
  | JValue.num neg mant notInt => if notInt || neg then none else some mant
  | _ => none

/-! ### Directive parsing (`parse_tool_call`, `extract_final`,
`parse_parallel_tasks`) -/

/-- `ToolCall`: the payload of a `<tool_code>` region. -/
structure ToolCall where
  name : String
  args : JValue

/-- Deserializing the `RawToolCall` struct: a JSON object with a string
field `name` and an arbitrary field `args` (extra fields ignored). -/
def parseRawToolCall (s : String) : Option ToolCall :=
  match fromStr s with
  | some (JValue.obj fields) =>
    match objGet fields "name", objGet fields "args" with
    | some (JValue.str n), some a => some ⟨n, a⟩
    | _, _ => none
  | _ => none

/-- The scan of `parse_tool_call` over the character list: first
`<tool_code>` region, whitespace-trimmed, deserialized. -/
def parseToolCallCore (l : List Char) : Option ToolCall :=
  (extractRegion toolOpen toolClose l).bind fun raw =>
    parseRawToolCall (String.mk (trimWs raw))

/-- `parse_tool_call` (identical in subagent/mod.rs and cli/mod.rs). -/
def parse_tool_call (content : String) : Option ToolCall :=
  parseToolCallCore content.toList

/-- `extract_final`: first `<final>` region, trimmed; empty means no
directive. -/
def extract_final (content : String) : Option String :=
  (extractRegion finalOpen finalClose content.toList).bind fun raw =>
    if (trimWs raw).isEmpty then none else some (String.mk (trimWs raw))

/-- `SubAgentConfig`. -/
structure SubAgentConfig where
  task : String
  agent_type : String
  max_loops : Nat
deriving DecidableEq, Repr

/-- The scan of the regex `\x7b[^\x7b\x7d]*\x7d` over the region text:
leftmost non-overlapping matches, each an opening brace, a run of
non-brace characters and a closing brace. -/
def chunksAux : Option (List Char) → List Char → List (List Char)
  | _, [] => []
  | none, c :: rest =>
    if c = '\x7b' then chunksAux (some []) rest else chunksAux none rest
  | some buf, c :: rest =>
    if c = '\x7d' then ('\x7b' :: buf.reverse ++ ['\x7d']) :: chunksAux none rest
    else if c = '\x7b' then chunksAux (some []) rest
    else chunksAux (some (c :: buf)) rest

def braceChunks (l : List Char) : List (List Char) := chunksAux none l

/-- The per-chunk body of `parse_parallel_tasks`: a parsed object is
kept when `value["task"]` is a string; `type` defaults to dynamic and
`max_loops` to 20. -/
def configOfValue (v : JValue) : Option SubAgentConfig :=
  match asStr (jIndex v "task") with
  | none => none
  | some task =>
    some ⟨task, (asStr (jIndex v "type")).getD "dynamic",
      (asU64 (jIndex v "max_loops")).getD 20⟩

/-- `parse_parallel_tasks`: all brace chunks of the first `<parallel>`
region, parsed independently; an empty result list yields `None`. -/
def parse_parallel_tasks (content : String) : Option (List SubAgentConfig) :=
  (extractRegion parallelOpen parallelClose content.toList).bind fun raw =>
    let configs := (braceChunks (trimWs raw)).filterMap
      (fun chunk => (fromStr (String.mk chunk)).bind configOfValue)
    if configs.isEmpty then none else some configs

example : extract_final "<final>done</final>" = some "done" := by rfl

example : extract_final "<final>   </final>" = none := by rfl

example :
    parse_tool_call "use it<tool_code> \x7b\"name\": \"bash\", \"args\": \x7b\"command\": \"ls\"\x7d\x7d </tool_code>"
      = some ⟨"bash", JValue.obj [("command", JValue.str "ls")]⟩ := by rfl

example :
    parse_parallel_tasks "<parallel>\x7b\"task\":\"A\",\"type\":\"code\"\x7d\x7b\"task\":\"B\",\"type\":\"test\",\"max_loops\":5\x7d</parallel>"
      = some [⟨"A", "code", 20⟩, ⟨"B", "test", 5⟩] := by rfl

/-- C6: final-answer extraction yields None for an empty or
whitespace-only `<final>` region and FinalAnswer("done") for
`<final>done</final>`; in general the captured inner text is trimmed
and an empty trimmed result means no directive. -/
theorem C6_extract_final_spec :
    extract_final "<final></final>" = none ∧
    extract_final "<final>   </final>" = none ∧
    extract_final "<final>done</final>" = some "done" ∧
    (∀ (content : String) (raw : List Char),
      extractRegion finalOpen finalClose content.toList = some raw →
      extract_final content =
        if (trimWs raw).isEmpty then none else some (String.mk (trimWs raw))) := by
  refine ⟨by rfl, by rfl, by rfl, ?_⟩
  intro content raw hreg
  unfold extract_final
  rw [hreg]
  rfl

theorem C6_extract_final_spec_witness :
    extract_final "<final> hi </final>" =
      if (trimWs (" hi ".toList)).isEmpty then none
      else some (String.mk (trimWs (" hi ".toList))) :=
  C6_extract_final_spec.2.2.2 "<final> hi </final>" " hi ".toList (by rfl)

/-- C7: the two-task scenario parses to SubTaskSpecs A (type code,
default 20 loops) and B (type test, 5 loops); missing `task` skips the
object, missing `type` defaults to dynamic, missing `max_loops`
defaults to 20, and an empty result set never yields a batch. -/
theorem C7_parse_parallel_spec :
    parse_parallel_tasks "<parallel>\x7b\"task\":\"A\",\"type\":\"code\"\x7d\x7b\"task\":\"B\",\"type\":\"test\",\"max_loops\":5\x7d</parallel>"
      = some [⟨"A", "code", 20⟩, ⟨"B", "test", 5⟩] ∧
    (∀ content : String, parse_parallel_tasks content ≠ some []) ∧
    (∀ v : JValue, asStr (jIndex v "task") = none → configOfValue v = none) ∧
    (∀ (v : JValue) (task : String), asStr (jIndex v "task") = some task →
      configOfValue v = some ⟨task, (asStr (jIndex v "type")).getD "dynamic",
        (asU64 (jIndex v "max_loops")).getD 20⟩) := by
  refine ⟨by rfl, ?_, ?_, ?_⟩
  · intro content h
    unfold parse_parallel_tasks at h
    cases hreg : extractRegion parallelOpen parallelClose content.toList with
    | none => rw [hreg] at h; simp at h
    | some raw =>
      rw [hreg] at h
      simp at h
      obtain ⟨⟨x, hx, v, hv, hnv⟩, hall⟩ := h
      exact hnv (hall x hx v hv)
  · intro v hv
    simp [configOfValue, hv]
  · intro v task hv
    simp [configOfValue, hv]

theorem C7_parse_parallel_spec_witness :
    parse_parallel_tasks "no batch here" ≠ some [] ∧
    configOfValue (JValue.obj []) = none ∧
    configOfValue (JValue.obj [("task", JValue.str "T")]) =
      some ⟨"T", (asStr (jIndex (JValue.obj [("task", JValue.str "T")]) "type")).getD "dynamic",
        (asU64 (jIndex (JValue.obj [("task", JValue.str "T")]) "max_loops")).getD 20⟩ :=
  ⟨C7_parse_parallel_spec.2.1 "no batch here",
   C7_parse_parallel_spec.2.2.1 (JValue.obj []) (by rfl),
   C7_parse_parallel_spec.2.2.2 (JValue.obj [("task", JValue.str "T")]) "T" (by rfl)⟩

/-- C9: the single-level brace regex mis-tokenizes a task object with a
nested object value: for this parallel region the extracted chunk is the
inner object only, so no SubTaskSpec for the full task is produced (the
batch parses to None), although the full object is valid JSON carrying a
`task` field. -/
theorem C9_nested_brace_mistokenized :
    parse_parallel_tasks "<parallel>\x7b\"task\":\"A\",\"meta\":\x7b\"x\":1\x7d\x7d</parallel>" = none ∧
    fromStr "\x7b\"task\":\"A\",\"meta\":\x7b\"x\":1\x7d\x7d" =
      some (JValue.obj [("task", JValue.str "A"),
        ("meta", JValue.obj [("x", JValue.num false 1 false)])]) ∧
    braceChunks "\x7b\"task\":\"A\",\"meta\":\x7b\"x\":1\x7d\x7d".toList
      = ["\x7b\"x\":1\x7d".toList] := by
  exact ⟨by rfl, by rfl, by rfl⟩

/-- C10: only the first `<tool_code>` region is parsed: the result over
a text with two regions equals the result over the first region alone,
namely the deserialization of the first region's trimmed inner text —
whatever the second region holds. -/
theorem C10_first_tool_region (i1 mid i2 : List Char) (h1 : '<' ∉ i1) :
    parseToolCallCore (toolOpen ++ i1 ++ toolClose ++ mid ++ toolOpen ++ i2 ++ toolClose)
      = parseRawToolCall (String.mk (trimWs i1)) ∧
    parseToolCallCore (toolOpen ++ i1 ++ toolClose)
      = parseRawToolCall (String.mk (trimWs i1)) := by
  have hc : toolClose.head? = some '<' := rfl
  constructor
  · unfold parseToolCallCore extractRegion
    have e1 : toolOpen ++ i1 ++ toolClose ++ mid ++ toolOpen ++ i2 ++ toolClose
        = toolOpen ++ (i1 ++ toolClose ++ (mid ++ toolOpen ++ i2 ++ toolClose)) := by
      simp [List.append_assoc]
    rw [e1, splitFirst_of_prefix]
    simp only [Option.some_bind]
    rw [splitFirst_append i1 (mid ++ toolOpen ++ i2 ++ toolClose) hc h1]
    rfl
  · unfold parseToolCallCore extractRegion
    have e2 : toolOpen ++ i1 ++ toolClose = toolOpen ++ (i1 ++ toolClose ++ []) := by
      simp [List.append_assoc]
    rw [e2, splitFirst_of_prefix]
    simp only [Option.some_bind]
    rw [splitFirst_append i1 [] hc h1]
    rfl

theorem C10_first_tool_region_witness :
    parseToolCallCore (toolOpen ++ "oops".toList ++ toolClose ++ " and ".toList ++
        toolOpen ++ "\x7b\"name\":\"bash\",\"args\":\x7b\x7d\x7d".toList ++ toolClose)
      = parseRawToolCall (String.mk (trimWs "oops".toList)) ∧
    parseToolCallCore (toolOpen ++ "oops".toList ++ toolClose)
      = parseRawToolCall (String.mk (trimWs "oops".toList)) :=
  C10_first_tool_region "oops".toList " and ".toList
    "\x7b\"name\":\"bash\",\"args\":\x7b\x7d\x7d".toList (by decide)

/-! ### The SubAgent loop body

One iteration of `SubAgent::run` (subagent/mod.rs lines 118-212),
with each `tokio::select!` suspension point modeled by an explicit race
outcome: the environment says whether the awaited operation completed
(with its `Result`) or the interrupt subscription fired first.  The
body is split into one definition per decision point, pattern-matching
on the value the source matches on. -/

inductive SubAgentStatus where
  | Pending
  | Running
  | Completed
  | Failed (reason : String)
deriving DecidableEq, Repr

inductive RaceOutcome (α : Type) where
  | done (a : α)
  | interrupted

/-- Race outcomes for the two suspension points of one iteration. -/
structure StepEnv where
  llmResult : RaceOutcome (Except String String)
  toolResult : RaceOutcome (Except String String)

inductive StepResult where
  | next
  | finished (answer : String)
  | failed (err : String)
deriving DecidableEq, Repr

/-- The mutable per-agent state touched by the loop body. -/
structure AgentState where
  context : ContextManager
  status : SubAgentStatus
  result : Option String

/-- The nudge appended when no directive is recognized. -/
def nudgeText : String :=
  "Continue. If finished, wrap the final answer in <final>...</final>."

/-- A captured tool result: the output on success, the error rendered
as text otherwise. -/
def toolOutputText : Except String String → String
  | Except.ok o => o
  | Except.error e => "Error: " ++ e

/-- The User message recording a tool output. -/
def toolOutputMsg (name output : String) : Message :=
  ⟨Role.User, "Tool \x27" ++ name ++ "\x27 output:\n" ++ output⟩

/-- The tool-call branch: race the call against the interrupt when the
tool exists, otherwise synthesize a not-found text; append the outcome
and compress. -/
def onToolCall (env : StepEnv) (st1 : AgentState) (tc : ToolCall)
    (registered : Bool) : AgentState × StepResult :=
  if registered then
    match env.toolResult with
    | RaceOutcome.interrupted =>
      ({ st1 with status := SubAgentStatus.Failed "Cancelled by user" },
        StepResult.failed "cancelled")
    | RaceOutcome.done r =>
      let st2 : AgentState := { st1 with
        context := add_message st1.context (toolOutputMsg tc.name (toolOutputText r)) }
      ({ st2 with context := compress st2.context }, StepResult.next)
  else
    let st2 : AgentState := { st1 with
      context := add_message st1.context
        (toolOutputMsg tc.name ("Tool \x27" ++ tc.name ++ "\x27 not found")) }
    ({ st2 with context := compress st2.context }, StepResult.next)

/-- The no-tool-call branch, dispatching on `extract_final`. -/
def onNoToolCall (loop_count max_loops : Nat) (st1 : AgentState) :
    Option String → AgentState × StepResult
  | some final_text =>
    ({ st1 with status := SubAgentStatus.Completed, result := some final_text },
      StepResult.finished final_text)
  | none =>
    if loop_count ≥ max_loops then
      ({ st1 with status := SubAgentStatus.Failed "Max loops reached" },
        StepResult.failed "max loops reached")
    else
      let st2 : AgentState := { st1 with
        context := add_message st1.context ⟨Role.User, nudgeText⟩ }
      ({ st2 with context := compress st2.context }, StepResult.next)

/-- Dispatch on the parsed directive of the completion. -/
def onDirective (hasTool : String → Bool) (env : StepEnv)
    (loop_count max_loops : Nat) (st1 : AgentState) (response : String) :
    Option ToolCall → AgentState × StepResult
  | some tc => onToolCall env st1 tc (hasTool tc.name)
  | none => onNoToolCall loop_count max_loops st1 (extract_final response)

/-- Dispatch on the completion race: interrupt fails the agent with
"Cancelled by user"; an LLM error propagates without a status change;
a completion is appended as an Assistant message and parsed. -/
def onLlmResult (hasTool : String → Bool) (env : StepEnv)
    (loop_count max_loops : Nat) (st : AgentState) :
    RaceOutcome (Except String String) → AgentState × StepResult
  | RaceOutcome.interrupted =>
    ({ st with status := SubAgentStatus.Failed "Cancelled by user" },
      StepResult.failed "cancelled")
  | RaceOutcome.done (Except.error e) => (st, StepResult.failed e)
  | RaceOutcome.done (Except.ok response) =>
    let st1 : AgentState :=
      { st with context := add_message st.context ⟨Role.Assistant, response⟩ }
    onDirective hasTool env loop_count max_loops st1 response
      (parse_tool_call response)

/-- One iteration of `SubAgent::run`.  `hasTool` is the registry
lookup; `StepResult.next` means the loop continues. -/
def runIteration (hasTool : String → Bool) (env : StepEnv)
    (loop_count max_loops : Nat) (st : AgentState) : AgentState × StepResult :=
  onLlmResult hasTool env loop_count max_loops st env.llmResult

/-- A plain running agent state: empty context at the default 8192
budget, no summarizer, no result yet. -/
def st0 : AgentState := ⟨⟨[], 8192, none⟩, SubAgentStatus.Running, none⟩

/-- A completion carrying a malformed tool region and a final answer. -/
def mixedResp : String := "<tool_code>oops</tool_code><final>done</final>"

/-- C3: the claim asserts the loop takes the nudge/max-iterations path
on a malformed `<tool_code>` region even when a non-empty `<final>`
region is present.  It fails: the code only checks `extract_final`
against the parse result, so this completion finishes the loop with
answer "done" and status Completed instead. -/
theorem C3_counterexample :
    extractRegion toolOpen toolClose mixedResp.toList = some "oops".toList ∧
    parseRawToolCall "oops" = none ∧
    parse_tool_call mixedResp = none ∧
    extract_final mixedResp = some "done" ∧
    (runIteration (fun _ => true)
        ⟨RaceOutcome.done (Except.ok mixedResp), RaceOutcome.done (Except.ok "")⟩
        1 20 st0).2 = StepResult.finished "done" ∧
    (runIteration (fun _ => true)
        ⟨RaceOutcome.done (Except.ok mixedResp), RaceOutcome.done (Except.ok "")⟩
        1 20 st0).1.status = SubAgentStatus.Completed :=
  ⟨by rfl, by rfl, by rfl, by rfl, by rfl, by rfl⟩

/-- C3 (amended): a `<tool_code>` region whose inner text is malformed
JSON or lacks a string `name` yields directive None, and the loop then
falls through to final-answer extraction exactly as if no tool region
existed: a non-empty `<final>` region completes the loop with that
answer; only when that is also absent does the loop nudge or fail on
max iterations. -/
theorem C3_amended :
    ∀ (response : String) (raw : List Char),
      extractRegion toolOpen toolClose response.toList = some raw →
      parseRawToolCall (String.mk (trimWs raw)) = none →
      parse_tool_call response = none ∧
      (∀ (hasTool : String → Bool) (env : StepEnv) (lc ml : Nat)
          (st : AgentState) (t : String),
        env.llmResult = RaceOutcome.done (Except.ok response) →
        extract_final response = some t →
        runIteration hasTool env lc ml st =
          ({ st with
              context := add_message st.context ⟨Role.Assistant, response⟩,
              status := SubAgentStatus.Completed,
              result := some t }, StepResult.finished t)) ∧
      (∀ (hasTool : String → Bool) (env : StepEnv) (lc ml : Nat)
          (st : AgentState),
        env.llmResult = RaceOutcome.done (Except.ok response) →
        extract_final response = none →
        (ml ≤ lc → runIteration hasTool env lc ml st =
          ({ st with
              context := add_message st.context ⟨Role.Assistant, response⟩,
              status := SubAgentStatus.Failed "Max loops reached" },
            StepResult.failed "max loops reached")) ∧
        (lc < ml → runIteration hasTool env lc ml st =
          ({ st with
              context := compress (add_message
                (add_message st.context ⟨Role.Assistant, response⟩)
                ⟨Role.User, nudgeText⟩) },
            StepResult.next))) := by
  intro response raw hreg hparse
  have hnone : parse_tool_call response = none := by
    unfold parse_tool_call parseToolCallCore
    rw [hreg]
    simpa using hparse
  refine ⟨hnone, ?_, ?_⟩
  · intro hasTool env lc ml st t henv hfin
    simp only [runIteration, henv, onLlmResult, hnone, onDirective, hfin,
      onNoToolCall]
  · intro hasTool env lc ml st henv hfin
    constructor
    · intro hml
      simp only [runIteration, henv, onLlmResult, hnone, onDirective, hfin,
        onNoToolCall]
      rw [if_pos hml]
    · intro hml
      simp only [runIteration, henv, onLlmResult, hnone, onDirective, hfin,
        onNoToolCall]
      rw [if_neg (by omega)]

theorem C3_amended_witness :
    parse_tool_call "<tool_code>bad</tool_code><final>ok</final>" = none ∧
    runIteration (fun _ => false)
        ⟨RaceOutcome.done (Except.ok "<tool_code>bad</tool_code><final>ok</final>"),
          RaceOutcome.done (Except.ok "")⟩ 1 20 st0 =
      ({ st0 with
          context := add_message st0.context
            ⟨Role.Assistant, "<tool_code>bad</tool_code><final>ok</final>"⟩,
          status := SubAgentStatus.Completed,
          result := some "ok" }, StepResult.finished "ok") :=
  ⟨(C3_amended "<tool_code>bad</tool_code><final>ok</final>" "bad".toList
      (by rfl) (by rfl)).1,
   (C3_amended "<tool_code>bad</tool_code><final>ok</final>" "bad".toList
      (by rfl) (by rfl)).2.1 (fun _ => false)
      ⟨RaceOutcome.done (Except.ok "<tool_code>bad</tool_code><final>ok</final>"),
        RaceOutcome.done (Except.ok "")⟩ 1 20 st0 "ok" rfl (by rfl)⟩

/-- C4: when the interrupt wins the race against an in-flight tool
call, the iteration returns a cancellation failure, the status becomes
Failed("Cancelled by user"), and the conversation gains no tool-result
message — its last message is still the Assistant completion. -/
theorem C4_interrupt_during_tool :
    ∀ (hasTool : String → Bool) (env : StepEnv) (lc ml : Nat) (st : AgentState)
      (response : String) (tc : ToolCall),
      env.llmResult = RaceOutcome.done (Except.ok response) →
      parse_tool_call response = some tc →
      hasTool tc.name = true →
      env.toolResult = RaceOutcome.interrupted →
      runIteration hasTool env lc ml st =
        ({ st with
            context := add_message st.context ⟨Role.Assistant, response⟩,
            status := SubAgentStatus.Failed "Cancelled by user" },
          StepResult.failed "cancelled") := by
  intro hasTool env lc ml st response tc henv hparse htool htoolres
  simp only [runIteration, henv, onLlmResult, hparse, onDirective, onToolCall,
    htool, if_true, htoolres]

/-- The tool-call completion used in the interrupt scenario. -/
def toolResp : String := "<tool_code>\x7b\"name\":\"bash\",\"args\":\x7b\x7d\x7d</tool_code>"

theorem C4_interrupt_during_tool_witness :
    runIteration (fun _ => true)
        ⟨RaceOutcome.done (Except.ok toolResp), RaceOutcome.interrupted⟩ 1 20 st0 =
      ({ st0 with
          context := add_message st0.context ⟨Role.Assistant, toolResp⟩,
          status := SubAgentStatus.Failed "Cancelled by user" },
        StepResult.failed "cancelled") :=
  C4_interrupt_during_tool (fun _ => true)
    ⟨RaceOutcome.done (Except.ok toolResp), RaceOutcome.interrupted⟩ 1 20 st0
    toolResp ⟨"bash", JValue.obj []⟩ rfl (by rfl) rfl rfl

/-! ### Agent Record cancellation (`SubAgentManager::cancel`) -/

/-- The cancellation-relevant fields of a SubAgent record. -/
structure AgentRecord where
  status : SubAgentStatus
  result : Option String
deriving DecidableEq, Repr

/-- The body of `SubAgentManager::cancel` once the record is locked:
only Pending or Running records transition to Failed(reason) with the
partial result cleared. -/
def cancelRecord (r : AgentRecord) (reason : String) : AgentRecord :=
  if r.status = SubAgentStatus.Pending ∨ r.status = SubAgentStatus.Running then
    ⟨SubAgentStatus.Failed reason, none⟩
  else r

/-- `SubAgentManager::cancel` over the registry: the record stored under
`id`, if any, is cancelled; other records are untouched. -/
def managerCancel (agents : List (String × AgentRecord)) (id reason : String) :
    List (String × AgentRecord) :=
  agents.map fun p => if p.1 = id then (p.1, cancelRecord p.2 reason) else p

theorem cancelRecord_active {r : AgentRecord} (reason : String)
    (h : r.status = SubAgentStatus.Pending ∨ r.status = SubAgentStatus.Running) :
    cancelRecord r reason = ⟨SubAgentStatus.Failed reason, none⟩ := by
  unfold cancelRecord
  rw [if_pos h]

theorem cancelRecord_terminal {r : AgentRecord} (reason : String)
    (h : ¬(r.status = SubAgentStatus.Pending ∨ r.status = SubAgentStatus.Running)) :
    cancelRecord r reason = r := by
  unfold cancelRecord
  rw [if_neg h]

theorem cancelRecord_idem (r : AgentRecord) (r1 r2 : String) :
    cancelRecord (cancelRecord r r1) r2 = cancelRecord r r1 := by
  by_cases h : r.status = SubAgentStatus.Pending ∨ r.status = SubAgentStatus.Running
  · rw [cancelRecord_active r1 h, cancelRecord_terminal r2 (by simp)]
  · rw [cancelRecord_terminal r1 h, cancelRecord_terminal r2 h]

/-- C5: cancellation fails a Pending or Running record with the given
reason and clears its result; Completed or already-Failed records are
left untouched; repeated cancellation (any reasons, record or registry
level) is idempotent. -/
theorem C5_cancel_spec :
    ∀ (r : AgentRecord) (reason : String),
      ((r.status = SubAgentStatus.Pending ∨ r.status = SubAgentStatus.Running) →
        cancelRecord r reason = ⟨SubAgentStatus.Failed reason, none⟩) ∧
      ((r.status = SubAgentStatus.Completed ∨
          (∃ e, r.status = SubAgentStatus.Failed e)) →
        cancelRecord r reason = r) ∧
      (∀ reason2 : String,
        cancelRecord (cancelRecord r reason) reason2 = cancelRecord r reason) ∧
      (∀ (agents : List (String × AgentRecord)) (id reason2 : String),
        managerCancel (managerCancel agents id reason) id reason2 =
          managerCancel agents id reason) := by
  intro r reason
  refine ⟨?_, ?_, ?_, ?_⟩
  · exact cancelRecord_active reason
  · intro h
    apply cancelRecord_terminal
    rcases h with h | ⟨e, h⟩ <;> rw [h] <;> simp
  · intro reason2
    exact cancelRecord_idem r reason reason2
  · intro agents id reason2
    unfold managerCancel
    rw [List.map_map]
    apply List.map_congr_left
    intro p _
    by_cases hp : p.1 = id
    · simp [Function.comp_apply, hp, cancelRecord_idem]
    · simp [Function.comp_apply, hp]

theorem C5_cancel_spec_witness :
    cancelRecord ⟨SubAgentStatus.Pending, none⟩ "stop" =
      ⟨SubAgentStatus.Failed "stop", none⟩ ∧
    cancelRecord ⟨SubAgentStatus.Completed, some "res"⟩ "stop" =
      ⟨SubAgentStatus.Completed, some "res"⟩ ∧
    cancelRecord (cancelRecord ⟨SubAgentStatus.Running, none⟩ "a") "b" =
      cancelRecord ⟨SubAgentStatus.Running, none⟩ "a" ∧
    managerCancel (managerCancel [("i", ⟨SubAgentStatus.Running, none⟩)] "i" "a")
        "i" "b" =
      managerCancel [("i", ⟨SubAgentStatus.Running, none⟩)] "i" "a" :=
  ⟨(C5_cancel_spec ⟨SubAgentStatus.Pending, none⟩ "stop").1 (Or.inl rfl),
   (C5_cancel_spec ⟨SubAgentStatus.Completed, some "res"⟩ "stop").2.1 (Or.inl rfl),
   (C5_cancel_spec ⟨SubAgentStatus.Running, none⟩ "a").2.2.1 "b",
   (C5_cancel_spec ⟨SubAgentStatus.Running, none⟩ "a").2.2.2
     [("i", ⟨SubAgentStatus.Running, none⟩)] "i" "b"⟩
